import Mathlib

/-!
Shallow embedding of the DejaVu duplicate-detection engine.

Sources embedded (translated from the Rust code):
* `src/models/file_info.rs` — `FileInfo`, `MediaType` and friends;
* `src/models/duplicate_group.rs` — `DuplicateGroup`, `select_original`,
  `total_size`, `wasted_space`;
* `src/hashing/exact_hash.rs` — `ExactHasher::compute_hash` (SHA-256 of the
  file bytes; the incremental 64KB-chunked reading of the Rust code hashes
  exactly the concatenated byte stream, so it is embedded as SHA-256 of the
  whole content);
* `src/hashing/perceptual_hash.rs` — `PerceptualHasher` (the stubbed
  `compute_hash`, `hamming_distance`, `are_similar`);
* `src/dedup/hash_group.rs` — `HashGrouper` with `group_by_exact_hash`,
  `find_similar_images` and `find_duplicates`.

The filesystem is modelled by an environment `content : String → Option (List Nat)`
mapping a path to its byte content, `none` meaning the file cannot be read
(I/O failure).  Rust's `u64`/`u32` values are modelled as `Nat`; overflow is
irrelevant for the properties proved here (hash words are reduced mod 2^32
explicitly inside SHA-256).  The rayon parallel fold of
`group_by_exact_hash` is embedded as a sequential left fold: the spec and the
code agree that membership of the resulting groups does not depend on the
(non-deterministic) completion order, and the claims below only concern
membership, never bucket enumeration order.  The lock-poisoning error branch
of the Rust code cannot occur in a sequential model and is therefore not
representable; progress bars are pure side effects and are carried as an
ignored `Option Unit` argument.
-/

/-- Error type, from `src/error/mod.rs` (only the constructors the embedded
code can produce are carried). -/
inductive DejaVuError where
  | io (path : String)
  | fileOperationFailed (msg : String)
deriving DecidableEq, Inhabited

/-- Supported image formats, from `src/models/file_info.rs`. -/
inductive ImageFormat where
  | jpeg | png | gif | webp | bmp | tiff
deriving DecidableEq, Inhabited

/-- Supported video formats, from `src/models/file_info.rs`. -/
inductive VideoFormat where
  | mp4 | mov | avi | mkv | webm
deriving DecidableEq, Inhabited

/-- Media type classification, from `src/models/file_info.rs`. -/
inductive MediaType where
  | image (format : ImageFormat)
  | video (format : VideoFormat)
deriving DecidableEq, Inhabited

/-- Metadata record for a media file, from `src/models/file_info.rs`.
The path is carried as its string form; `modified` is the `SystemTime`
modelled as a number (nanoseconds since epoch — only its order matters). -/
structure FileInfo where
  path : String
  size : Nat
  modified : Nat
  file_type : MediaType
deriving DecidableEq, Inhabited

/-- `FileInfo::is_image`, from `src/models/file_info.rs`. -/
def FileInfo.is_image (f : FileInfo) : Bool :=
  match f.file_type with
  | MediaType.image _ => true
  | MediaType.video _ => false

/-- Byte length of the path string (Rust `path.as_os_str().len()` counts the
UTF-8 bytes of the path). -/
def osStrLen (s : String) : Nat :=
  (s.data.map Char.utf8Size).sum

/-- Helper for `componentsCount`: counts maximal runs of non-separator
characters. -/
def countSegments : List Char → Bool → Nat
  | [], _ => 0
  | c :: rest, inSeg =>
    if c = '/' then countSegments rest false
    else (if inSeg then 0 else 1) + countSegments rest true

/-- Number of components of a path string, modelling Rust
`path.components().count()`: one component per non-empty segment, plus one
for the root directory of an absolute path. -/
def componentsCount (s : String) : Nat :=
  (match s.data with
   | c :: _ => if c = '/' then 1 else 0
   | [] => 0) + countSegments s.data false

/-- The comparison key of `DuplicateGroup::select_original`
(`(f.modified, f.path.as_os_str().len(), f.path.components().count())`). -/
def origKey (f : FileInfo) : Nat × Nat × Nat :=
  (f.modified, osStrLen f.path, componentsCount f.path)

/-- Strict lexicographic order on the `select_original` key, as Rust's
derived `Ord` on the 3-tuple compares it. -/
def keyLt (a b : Nat × Nat × Nat) : Bool :=
  a.1 < b.1 || (a.1 = b.1 && (a.2.1 < b.2.1 || (a.2.1 = b.2.1 && a.2.2 < b.2.2)))

/-- `Iterator::min_by_key` keeps the first of several equally-minimal
elements: it replaces the current best only on a strictly smaller key. -/
def minByStep (b y : Nat × FileInfo) : Nat × FileInfo :=
  if keyLt (origKey y.2) (origKey b.2) then y else b

/-- `DuplicateGroup::select_original` from `src/models/duplicate_group.rs`:
index of the first member minimising `origKey`, `0` for an empty list. -/
def select_original (files : List FileInfo) : Nat :=
  match files.enum with
  | [] => 0
  | p :: ps => (ps.foldl minByStep p).1

/-- A group of duplicate files, from `src/models/duplicate_group.rs`. -/
structure DuplicateGroup where
  group_id : Nat
  files : List FileInfo
  exact_hash : Option (List Nat)
  perceptual_hash : Option Nat
  recommended_original : Nat
deriving DecidableEq, Inhabited

/-- `DuplicateGroup::new`. -/
def DuplicateGroup.new (group_id : Nat) (files : List FileInfo) : DuplicateGroup :=
  { group_id := group_id
    files := files
    exact_hash := none
    perceptual_hash := none
    recommended_original := select_original files }

/-- `DuplicateGroup::with_exact_hash`. -/
def DuplicateGroup.with_exact_hash (g : DuplicateGroup) (hash : List Nat) : DuplicateGroup :=
  { g with exact_hash := some hash }

/-- `DuplicateGroup::with_perceptual_hash`. -/
def DuplicateGroup.with_perceptual_hash (g : DuplicateGroup) (hash : Nat) : DuplicateGroup :=
  { g with perceptual_hash := some hash }

/-- `DuplicateGroup::total_size`: sum of member sizes. -/
def DuplicateGroup.total_size (g : DuplicateGroup) : Nat :=
  (g.files.map FileInfo.size).sum

/-- `DuplicateGroup::wasted_space`: `0` for an empty member list, otherwise
total size minus the size of the recommended original. -/
def DuplicateGroup.wasted_space (g : DuplicateGroup) : Nat :=
  if g.files = [] then 0
  else g.total_size - (g.files.getD g.recommended_original default).size

/-- `DuplicateGroup::file_count`. -/
def DuplicateGroup.file_count (g : DuplicateGroup) : Nat :=
  g.files.length

/-! ### SHA-256 (the `sha2` crate used by `ExactHasher`), FIPS 180-4 -/

/-- Reduce to a 32-bit word. -/
def w32 (n : Nat) : Nat := n % 4294967296

/-- 32-bit right rotation. -/
def rotr32 (r x : Nat) : Nat := w32 ((x >>> r) ||| (x <<< (32 - r)))

def bigSigma0 (x : Nat) : Nat := (rotr32 2 x) ^^^ (rotr32 13 x) ^^^ (rotr32 22 x)

def bigSigma1 (x : Nat) : Nat := (rotr32 6 x) ^^^ (rotr32 11 x) ^^^ (rotr32 25 x)

def smallSigma0 (x : Nat) : Nat := (rotr32 7 x) ^^^ (rotr32 18 x) ^^^ (x >>> 3)

def smallSigma1 (x : Nat) : Nat := (rotr32 17 x) ^^^ (rotr32 19 x) ^^^ (x >>> 10)

def ch32 (x y z : Nat) : Nat := (x &&& y) ^^^ ((x ^^^ 4294967295) &&& z)

def maj32 (x y z : Nat) : Nat := (x &&& y) ^^^ (x &&& z) ^^^ (y &&& z)

/-- The 64 SHA-256 round constants. -/
def k256 : List Nat :=
  [1116352408, 1899447441, 3049323471, 3921009573, 961987163, 1508970993,
   2453635748, 2870763221, 3624381080, 310598401, 607225278, 1426881987,
   1925078388, 2162078206, 2614888103, 3248222580, 3835390401, 4022224774,
   264347078, 604807628, 770255983, 1249150122, 1555081692, 1996064986,
   2554220882, 2821834349, 2952996808, 3210313671, 3336571891, 3584528711,
   113926993, 338241895, 666307205, 773529912, 1294757372, 1396182291,
   1695183700, 1986661051, 2177026350, 2456956037, 2730485921, 2820302411,
   3259730800, 3345764771, 3516065817, 3600352804, 4094571909, 275423344,
   430227734, 506948616, 659060556, 883997877, 958139571, 1322822218,
   1537002063, 1747873779, 1955562222, 2024104815, 2227730452, 2361852424,
   2428436474, 2756734187, 3204031479, 3329325298]

/-- The SHA-256 initial hash value. -/
def h256 : List Nat :=
  [1779033703, 3144134277, 1013904242, 2773480762,
   1359893119, 2600822924, 528734635, 1541459225]

/-- Big-endian bytes of a number, fixed width. -/
def natToBytesBE : Nat → Nat → List Nat
  | 0, _ => []
  | k + 1, n => natToBytesBE k (n / 256) ++ [n % 256]

/-- Pack bytes into 32-bit big-endian words. -/
def bytesToWordsBE : List Nat → List Nat
  | a :: b :: c :: d :: rest => (a * 16777216 + b * 65536 + c * 256 + d) :: bytesToWordsBE rest
  | _ => []

/-- SHA-256 padding: `0x80`, zeros to 56 mod 64, then the 64-bit big-endian
bit length. -/
def sha256Pad (msg : List Nat) : List Nat :=
  msg ++ 128 :: List.replicate ((119 - msg.length % 64) % 64) 0 ++ natToBytesBE 8 (msg.length * 8)

/-- Split into 64-byte blocks (fuel-driven so that it evaluates in the
kernel; the fuel `l.length` always suffices). -/
def chunksAux : Nat → List Nat → List (List Nat)
  | 0, _ => []
  | k + 1, l => if l = [] then [] else l.take 64 :: chunksAux k (l.drop 64)

def chunks64 (l : List Nat) : List (List Nat) := chunksAux l.length l

/-- One message-schedule extension step. -/
def schedStep (w : List Nat) : List Nat :=
  w ++ [w32 (smallSigma1 (w.getD (w.length - 2) 0) + w.getD (w.length - 7) 0 +
             smallSigma0 (w.getD (w.length - 15) 0) + w.getD (w.length - 16) 0)]

/-- The 64-word message schedule of a block. -/
def schedule (block : List Nat) : List Nat :=
  (List.range 48).foldl (fun acc _ => schedStep acc) (bytesToWordsBE block)

/-- One SHA-256 compression round on the 8-word state. -/
def round256 (st : List Nat) (kw : Nat × Nat) : List Nat :=
  match st with
  | [a, b, c, d, e, f, g, h] =>
    let t1 := w32 (h + bigSigma1 e + ch32 e f g + kw.1 + kw.2)
    let t2 := w32 (bigSigma0 a + maj32 a b c)
    [w32 (t1 + t2), a, b, c, w32 (d + t1), e, f, g]
  | other => other

/-- Compress one 64-byte block into the running hash state. -/
def compress256 (h : List Nat) (block : List Nat) : List Nat :=
  let st := (k256.zip (schedule block)).foldl round256 h
  (h.zip st).map (fun p => w32 (p.1 + p.2))

/-- SHA-256 of a byte list, producing the 32 digest bytes. -/
def sha256 (msg : List Nat) : List Nat :=
  ((chunks64 (sha256Pad msg)).foldl compress256 h256).map (natToBytesBE 4) |>.flatten

/-! ### Exact hashing, `src/hashing/exact_hash.rs` -/

/-- `ExactHasher::compute_hash`: SHA-256 of the file's byte content; an
unreadable file surfaces as an I/O error tagged with the path. -/
def ExactHasher.compute_hash (content : String → Option (List Nat)) (path : String) :
    Except DejaVuError (List Nat) :=
  match content path with
  | some bytes => Except.ok (sha256 bytes)
  | none => Except.error (DejaVuError.io path)

/-! ### Perceptual hashing, `src/hashing/perceptual_hash.rs` -/

structure PerceptualHasher where
  hash_size : Nat

/-- `PerceptualHasher::new`. -/
def PerceptualHasher.new : PerceptualHasher := { hash_size := 8 }

/-- `PerceptualHasher::compute_hash` as the source writes it: the body
ignores the path and unconditionally returns `Ok(0)` (the code's own comment
calls it a dummy pending a real implementation). -/
def PerceptualHasher.compute_hash (_self : PerceptualHasher) (_path : String) :
    Except DejaVuError Nat :=
  Except.ok 0

/-- `u64::count_ones` of a 64-bit value: sum of the 64 binary digits. -/
def countOnes (n : Nat) : Nat :=
  (List.range 64).foldl (fun acc i => acc + n / 2 ^ i % 2) 0

/-- `PerceptualHasher::hamming_distance`: popcount of the XOR. -/
def PerceptualHasher.hamming_distance (hash1 hash2 : Nat) : Nat :=
  countOnes (hash1 ^^^ hash2)

/-- `PerceptualHasher::are_similar`: distance at most the threshold. -/
def PerceptualHasher.are_similar (hash1 hash2 threshold : Nat) : Bool :=
  PerceptualHasher.hamming_distance hash1 hash2 ≤ threshold

/-! ### Grouping, `src/dedup/hash_group.rs` -/

structure HashGrouper where
  similarity_threshold : Nat

/-- `HashGrouper::new`. -/
def HashGrouper.new (similarity_threshold : Nat) : HashGrouper :=
  { similarity_threshold := similarity_threshold }

/-- `map.entry(hash).or_default().push(file.clone())` on the shared
fingerprint map, embedded as an association list keyed by the digest. -/
def insertBucket (m : List (List Nat × List FileInfo)) (h : List Nat) (f : FileInfo) :
    List (List Nat × List FileInfo) :=
  match m with
  | [] => [(h, [f])]
  | (k, fs) :: rest =>
    if k = h then (k, fs ++ [f]) :: rest else (k, fs) :: insertBucket rest h f

/-- The per-file body of the accumulation loop of `group_by_exact_hash`:
hash the file and bucket it, or skip it when hashing fails
(`if let Ok(hash) = ...`). -/
def buildStep (content : String → Option (List Nat))
    (m : List (List Nat × List FileInfo)) (f : FileInfo) : List (List Nat × List FileInfo) :=
  match ExactHasher.compute_hash content f.path with
  | Except.ok h => insertBucket m h f
  | Except.error _ => m

/-- The accumulation loop of `group_by_exact_hash` over all files. -/
def buildMap (content : String → Option (List Nat)) (files : List FileInfo) :
    List (List Nat × List FileInfo) :=
  files.foldl (buildStep content) []

/-- `.filter(len > 1).enumerate().map(new ∘ with_exact_hash)` of
`group_by_exact_hash`, with the enumeration index made explicit. -/
def mkExactGroups (k : Nat) : List (List Nat × List FileInfo) → List DuplicateGroup
  | [] => []
  | (h, fs) :: rest => (DuplicateGroup.new k fs).with_exact_hash h :: mkExactGroups (k + 1) rest

/-- `HashGrouper::group_by_exact_hash`.  The rayon parallel iteration is
embedded as a sequential fold (see the header note); the progress bar is an
ignored argument. -/
def HashGrouper.group_by_exact_hash (_self : HashGrouper)
    (content : String → Option (List Nat)) (files : List FileInfo)
    (_progress : Option Unit) : Except DejaVuError (List DuplicateGroup) :=
  Except.ok (mkExactGroups 0 (((buildMap content files)).filter (fun kv => kv.2.length > 1)))

/-- The hash-computation loop of `find_similar_images`: images get
`perceptual_hasher.compute_hash(path)?` (the `?` aborts the whole call on an
error), non-images push the dummy hash 0. -/
def computePerceptualHashes : List FileInfo → Except DejaVuError (List Nat)
  | [] => Except.ok []
  | f :: fs => do
    let h ← if f.is_image then PerceptualHasher.new.compute_hash f.path else Except.ok 0
    let rest ← computePerceptualHashes fs
    return h :: rest

/-- The inner `for j in (i+1)..n` loop of `find_similar_images`: collect the
still-unassigned images similar to the seed `i`, marking them assigned. -/
def collectSimilar (files : List FileInfo) (hashes : List Nat) (threshold i : Nat) :
    List Nat → List Bool → List FileInfo × List Bool
  | [], assigned => ([], assigned)
  | j :: js, assigned =>
    if assigned.getD j false || !(files.getD j default).is_image then
      collectSimilar files hashes threshold i js assigned
    else if PerceptualHasher.are_similar (hashes.getD i 0) (hashes.getD j 0) threshold then
      let r := collectSimilar files hashes threshold i js (assigned.set j true)
      (files.getD j default :: r.1, r.2)
    else
      collectSimilar files hashes threshold i js assigned

/-- The outer `for i in 0..n` loop of `find_similar_images`: seed a cluster
at each unassigned image, collect its similar successors, and emit a group
exactly when the cluster has more than one member. -/
def clusterOuter (files : List FileInfo) (hashes : List Nat) (threshold : Nat) :
    List Nat → List Bool → List DuplicateGroup → List DuplicateGroup
  | [], _, groups => groups
  | i :: is, assigned, groups =>
    if assigned.getD i false || !(files.getD i default).is_image then
      clusterOuter files hashes threshold is assigned groups
    else
      let r := collectSimilar files hashes threshold i
        (List.range' (i + 1) (files.length - (i + 1))) (assigned.set i true)
      let similar_files := files.getD i default :: r.1
      if similar_files.length > 1 then
        clusterOuter files hashes threshold is r.2
          (groups ++ [(DuplicateGroup.new groups.length similar_files).with_perceptual_hash
            (hashes.getD i 0)])
      else
        clusterOuter files hashes threshold is r.2 groups

/-- The "Group similar images" section of `find_similar_images`
(`src/dedup/hash_group.rs` lines 134-168), parametric in the already
computed `perceptual_hashes` vector exactly as the Rust loop is. -/
def HashGrouper.clusterStage (self : HashGrouper) (files : List FileInfo)
    (hashes : List Nat) : List DuplicateGroup :=
  clusterOuter files hashes self.similarity_threshold
    (List.range files.length) (List.replicate files.length false) []

/-- `HashGrouper::find_similar_images`. -/
def HashGrouper.find_similar_images (self : HashGrouper) (files : List FileInfo)
    (_progress : Option Unit) : Except DejaVuError (List DuplicateGroup) := do
  let hashes ← computePerceptualHashes files
  return self.clusterStage files hashes

/-- `HashGrouper::find_duplicates`: runs stage 1 and returns its groups; the
perceptual second stage is not invoked. -/
def HashGrouper.find_duplicates (self : HashGrouper)
    (content : String → Option (List Nat)) (files : List FileInfo)
    (progress : Option Unit) : Except DejaVuError (List DuplicateGroup) := do
  let exact_groups ← self.group_by_exact_hash content files progress
  return exact_groups

/-- SHA-256 sanity anchor: the FIPS 180-4 test vector for "abc". -/
theorem sha256_abc :
    sha256 [0x61, 0x62, 0x63] =
      [0xba, 0x78, 0x16, 0xbf, 0x8f, 0x01, 0xcf, 0xea, 0x41, 0x41, 0x40, 0xde, 0x5d, 0xae, 0x22,
       0x23, 0xb0, 0x03, 0x61, 0xa3, 0x96, 0x17, 0x7a, 0x9c, 0xb4, 0x10, 0xff, 0x61, 0xf2, 0x00,
       0x15, 0xad] := by
  decide

/-! ### Helper lemmas -/

theorem foldl_bits_le (n : Nat) :
    ∀ (l : List Nat) (acc : Nat),
      l.foldl (fun acc i => acc + n / 2 ^ i % 2) acc ≤ acc + l.length := by
  intro l
  induction l with
  | nil => intro acc; simp
  | cons i t ih =>
    intro acc
    have hbit : n / 2 ^ i % 2 ≤ 1 := Nat.lt_succ_iff.mp (Nat.mod_lt _ (by omega))
    have := ih (acc + n / 2 ^ i % 2)
    simp only [List.foldl_cons, List.length_cons]
    omega

theorem countOnes_le_64 (n : Nat) : countOnes n ≤ 64 := by
  have h := foldl_bits_le n (List.range 64) 0
  simpa [countOnes] using h

theorem countOnes_zero : countOnes 0 = 0 := by decide

theorem mkExactGroups_perceptual_none :
    ∀ (k : Nat) (l : List (List Nat × List FileInfo)) (g : DuplicateGroup),
      g ∈ mkExactGroups k l → g.perceptual_hash = none := by
  intro k l
  induction l generalizing k with
  | nil => intro g hg; simp [mkExactGroups] at hg
  | cons p rest ih =>
    intro g hg
    simp only [mkExactGroups, List.mem_cons] at hg
    rcases hg with h | h
    · subst h; rfl
    · exact ih _ g h

/-! ### Sample records for witnesses -/

def imgA : FileInfo :=
  { path := "/pics/a.jpg", size := 100, modified := 10,
    file_type := MediaType.image ImageFormat.jpeg }

def imgB : FileInfo :=
  { path := "/pics/b.jpg", size := 120, modified := 20,
    file_type := MediaType.image ImageFormat.jpeg }

def imgC : FileInfo :=
  { path := "/pics/c.jpg", size := 130, modified := 30,
    file_type := MediaType.image ImageFormat.png }

/-! ### Claims -/

/-- C1: the claim says non-image inputs and decode failures must yield a
distinguished "no fingerprint" outcome instead of the zero digest, and that
`compute_hash` must not be a constant function.  The code does the opposite:
it returns `Ok(0)` for every path whatsoever, so the all-zero bit pattern
doubles as the only output and the function is the constant zero. -/
theorem C1_perceptual_hash_constant_zero :
    ∀ (self : PerceptualHasher) (path : String),
      self.compute_hash path = Except.ok 0 := by
  intro self path
  rfl

/-- C9: `hamming_distance` is the popcount of the XOR, is symmetric, lies in
`[0, 64]`, vanishes on the diagonal, and `are_similar` holds exactly when
the distance is at most the threshold. -/
theorem C9_hamming_distance_properties :
    ∀ (a b threshold : Nat), a < 2 ^ 64 → b < 2 ^ 64 →
      PerceptualHasher.hamming_distance a b = countOnes (a ^^^ b) ∧
      PerceptualHasher.hamming_distance a b = PerceptualHasher.hamming_distance b a ∧
      PerceptualHasher.hamming_distance a b ≤ 64 ∧
      PerceptualHasher.hamming_distance a a = 0 ∧
      (PerceptualHasher.are_similar a b threshold = true ↔
        PerceptualHasher.hamming_distance a b ≤ threshold) := by
  intro a b threshold _ _
  refine ⟨rfl, ?_, ?_, ?_, ?_⟩
  · simp [PerceptualHasher.hamming_distance, Nat.xor_comm]
  · exact countOnes_le_64 _
  · simp [PerceptualHasher.hamming_distance, countOnes_zero]
  · simp [PerceptualHasher.are_similar]

/-- C9 witness: the properties instantiated at `a = 5`, `b = 9`,
`threshold = 2`. -/
theorem C9_hamming_distance_properties_witness :
    PerceptualHasher.hamming_distance 5 9 = countOnes (5 ^^^ 9) ∧
    PerceptualHasher.hamming_distance 5 9 = PerceptualHasher.hamming_distance 9 5 ∧
    PerceptualHasher.hamming_distance 5 9 ≤ 64 ∧
    PerceptualHasher.hamming_distance 5 5 = 0 ∧
    (PerceptualHasher.are_similar 5 9 2 = true ↔
      PerceptualHasher.hamming_distance 5 9 ≤ 2) :=
  C9_hamming_distance_properties 5 9 2 (by decide) (by decide)

/-- C8: for a group whose recommended-original index is valid, wasted space
plus the original's size gives back the total size (so it equals the total
minus the original's size without truncation and is at most the total), and
an empty member list has zero wasted space. -/
theorem C8_wasted_space_identity :
    ∀ (g : DuplicateGroup),
      (g.recommended_original < g.files.length →
        g.wasted_space + (g.files.getD g.recommended_original default).size = g.total_size ∧
        g.wasted_space ≤ g.total_size) ∧
      (g.files = [] → g.wasted_space = 0) := by
  intro g
  constructor
  · intro h
    have hne : g.files ≠ [] := by
      intro he
      rw [he] at h
      simp at h
    have hmem : g.files.getD g.recommended_original default ∈ g.files := by
      rw [List.getD_eq_getElem g.files default h]
      exact List.getElem_mem h
    have hsz : (g.files.getD g.recommended_original default).size ≤ g.total_size :=
      List.single_le_sum (fun x _ => Nat.zero_le x) _ (List.mem_map_of_mem FileInfo.size hmem)
    have hws : g.wasted_space =
        g.total_size - (g.files.getD g.recommended_original default).size := by
      simp [DuplicateGroup.wasted_space, hne]
    exact ⟨by rw [hws]; omega, by rw [hws]; omega⟩
  · intro h
    simp [DuplicateGroup.wasted_space, h]

def g8 : DuplicateGroup := DuplicateGroup.new 0 [imgA, imgB]

def g8e : DuplicateGroup := DuplicateGroup.new 1 []

/-- C8 witness: the identity at a concrete two-member group and the empty
case at a concrete empty group. -/
theorem C8_wasted_space_identity_witness :
    (g8.wasted_space + (g8.files.getD g8.recommended_original default).size = g8.total_size ∧
      g8.wasted_space ≤ g8.total_size) ∧ g8e.wasted_space = 0 :=
  ⟨(C8_wasted_space_identity g8).1 (by decide), (C8_wasted_space_identity g8e).2 (by decide)⟩

/-- C10: the two-stage entry point `find_duplicates` returns exactly the
result of `group_by_exact_hash` on the same input, and none of its groups
carries a perceptual hash. -/
theorem C10_find_duplicates_is_exact_stage :
    ∀ (self : HashGrouper) (content : String → Option (List Nat))
      (files : List FileInfo) (progress : Option Unit),
      self.find_duplicates content files progress =
        self.group_by_exact_hash content files progress ∧
      (∀ gs, self.find_duplicates content files progress = Except.ok gs →
        ∀ g ∈ gs, g.perceptual_hash = none) := by
  intro self content files progress
  constructor
  · rfl
  · intro gs hgs g hg
    have h := hgs
    simp only [HashGrouper.find_duplicates, HashGrouper.group_by_exact_hash, bind, Except.bind,
      pure, Except.pure, Except.ok.injEq] at h
    subst h
    exact mkExactGroups_perceptual_none _ _ g hg

def env10 : String → Option (List Nat) := fun p =>
  if p = "/pics/a.jpg" then some [1, 2]
  else if p = "/pics/b.jpg" then some [1, 2]
  else none

/-- C10 witness: the equality and the no-perceptual-hash property at a
concrete environment with two byte-identical files. -/
theorem C10_find_duplicates_is_exact_stage_witness :
    (HashGrouper.new 5).find_duplicates env10 [imgA, imgB] none =
      (HashGrouper.new 5).group_by_exact_hash env10 [imgA, imgB] none ∧
    ∀ g ∈ ((HashGrouper.new 5).find_duplicates env10 [imgA, imgB] none).toOption.getD [],
      g.perceptual_hash = none :=
  ⟨(C10_find_duplicates_is_exact_stage (HashGrouper.new 5) env10 [imgA, imgB] none).1,
   fun g hg =>
    (C10_find_duplicates_is_exact_stage (HashGrouper.new 5) env10 [imgA, imgB] none).2
      _ rfl g hg⟩

/-- C2 counterexample: three concrete image records whose fingerprints
satisfy `are_similar(A,B)`, `are_similar(B,C)` and not `are_similar(A,C)` at
threshold 1, yet no cluster emitted by the grouping loop contains all three
records: the code links `C` against the seed `A` only, so `C` is left out. -/
theorem C2_single_cluster_counterexample :
    PerceptualHasher.are_similar 0 1 1 = true ∧
    PerceptualHasher.are_similar 1 3 1 = true ∧
    PerceptualHasher.are_similar 0 3 1 = false ∧
    imgA.is_image = true ∧ imgB.is_image = true ∧ imgC.is_image = true ∧
    ¬ ∃ g, g ∈ (HashGrouper.new 1).clusterStage [imgA, imgB, imgC] [0, 1, 3] ∧
      imgA ∈ g.files ∧ imgB ∈ g.files ∧ imgC ∈ g.files := by
  decide

/-- C2 amended: with fingerprints `a, b, c` such that `A` is similar to `B`
and `B` to `C` but `A` not to `C`, processing order `[A, B, C]` yields
exactly one cluster, containing `A` and `B` only and carrying `a` as its
representative fingerprint; `C` is left unclustered, because each candidate
is compared against the seed of the cluster, never against later members. -/
theorem C2_single_cluster_amended (t : Nat) (A B C : FileInfo) (a b c : Nat)
    (hA : A.is_image = true) (hB : B.is_image = true) (hC : C.is_image = true)
    (hab : PerceptualHasher.are_similar a b t = true)
    (_hbc : PerceptualHasher.are_similar b c t = true)
    (hac : PerceptualHasher.are_similar a c t = false) :
    (HashGrouper.new t).clusterStage [A, B, C] [a, b, c] =
      [(DuplicateGroup.new 0 [A, B]).with_perceptual_hash a] := by
  have hr : List.range 3 = [0, 1, 2] := rfl
  have hrep : List.replicate 3 false = [false, false, false] := rfl
  simp only [HashGrouper.clusterStage, HashGrouper.new, List.length_cons, List.length_nil]
  norm_num
  rw [hr, hrep]
  simp [clusterOuter, collectSimilar, hA, hB, hC, hab, hac, List.range']

/-- C2 amended witness: the amended statement instantiated at the concrete
records and fingerprints of the counterexample. -/
theorem C2_single_cluster_amended_witness :
    (HashGrouper.new 1).clusterStage [imgA, imgB, imgC] [0, 1, 3] =
      [(DuplicateGroup.new 0 [imgA, imgB]).with_perceptual_hash 0] :=
  C2_single_cluster_amended 1 imgA imgB imgC 0 1 3 (by decide) (by decide) (by decide)
    (by decide) (by decide) (by decide)

/-! ### Lemmas for the exact-stage fold and the clustering invariants -/

theorem buildStep_none (content : String → Option (List Nat))
    (m : List (List Nat × List FileInfo)) (f : FileInfo) (hc : content f.path = none) :
    buildStep content m f = m := by
  simp [buildStep, ExactHasher.compute_hash, hc]

theorem buildMapGo_skip (content : String → Option (List Nat)) :
    ∀ (files : List FileInfo) (m : List (List Nat × List FileInfo)),
      files.foldl (buildStep content) m =
      (files.filter (fun f => (content f.path).isSome)).foldl (buildStep content) m := by
  intro files
  induction files with
  | nil => intro m; rfl
  | cons f fs ih =>
    intro m
    cases hc : content f.path with
    | some bytes =>
      simp only [List.foldl_cons, List.filter_cons, hc, Option.isSome_some, if_pos]
      exact ih _
    | none =>
      simp only [List.foldl_cons, List.filter_cons, hc, Option.isSome_none,
        Bool.false_eq_true, if_false, buildStep_none content m f hc]
      exact ih m

theorem buildMap_skip_unreadable (content : String → Option (List Nat))
    (files : List FileInfo) :
    buildMap content files =
      buildMap content (files.filter (fun f => (content f.path).isSome)) :=
  buildMapGo_skip content files []

theorem computePerceptualHashes_ok (files : List FileInfo) :
    computePerceptualHashes files = Except.ok (files.map (fun _ => 0)) := by
  induction files with
  | nil => rfl
  | cons f fs ih =>
    cases h : f.is_image with
    | true =>
      simp [computePerceptualHashes, h, PerceptualHasher.compute_hash, ih, bind, Except.bind,
        pure, Except.pure]
    | false =>
      simp [computePerceptualHashes, h, ih, bind, Except.bind, pure, Except.pure]

/-- C3: a per-file fingerprinting failure never fails the overall call in
either stage: `group_by_exact_hash` always returns `ok` and its result is
the same as on the input with the unreadable files dropped (the failed file
is merely skipped), and `find_similar_images` always returns `ok` (its hash
computation cannot fail in the embedded code). -/
theorem C3_per_file_failures_isolated :
    ∀ (self : HashGrouper) (content : String → Option (List Nat))
      (files : List FileInfo) (progress : Option Unit),
      (∃ gs, self.group_by_exact_hash content files progress = Except.ok gs) ∧
      self.group_by_exact_hash content files progress =
        self.group_by_exact_hash content
          (files.filter (fun f => (content f.path).isSome)) progress ∧
      self.find_similar_images files progress =
        Except.ok (self.clusterStage files (files.map (fun _ => 0))) := by
  intro self content files progress
  refine ⟨⟨_, rfl⟩, ?_, ?_⟩
  · simp only [HashGrouper.group_by_exact_hash]
    rw [buildMap_skip_unreadable]
  · simp [HashGrouper.find_similar_images, computePerceptualHashes_ok]

theorem foldl_minByStep_mem :
    ∀ (ps : List (Nat × FileInfo)) (p : Nat × FileInfo), ps.foldl minByStep p ∈ p :: ps := by
  intro ps
  induction ps with
  | nil => intro p; simp
  | cons y ys ih =>
    intro p
    have h := ih (minByStep p y)
    by_cases hc : keyLt (origKey y.2) (origKey p.2)
    · simp only [List.foldl_cons, minByStep, hc, if_pos] at h ⊢
      simp at h ⊢
      tauto
    · simp only [List.foldl_cons, minByStep, hc, if_neg] at h ⊢
      simp at h ⊢
      tauto

theorem mem_enumFrom_lt :
    ∀ (l : List FileInfo) (k : Nat) (p : Nat × FileInfo),
      p ∈ l.enumFrom k → p.1 < k + l.length := by
  intro l
  induction l with
  | nil => intro k p hp; simp [List.enumFrom] at hp
  | cons x xs ih =>
    intro k p hp
    simp only [List.enumFrom, List.mem_cons] at hp
    rcases hp with h | h
    · subst h; simp
    · have := ih (k + 1) p h
      simp only [List.length_cons]
      omega

theorem select_original_lt (files : List FileInfo) (h : files ≠ []) :
    select_original files < files.length := by
  unfold select_original
  cases he : files.enum with
  | nil =>
    exfalso
    have : files.enum.length = 0 := by rw [he]; rfl
    rw [List.enum_length] at this
    exact h (List.length_eq_zero.mp this)
  | cons p ps =>
    have hmem : ps.foldl minByStep p ∈ files.enum := by
      rw [he]; exact foldl_minByStep_mem ps p
    have := mem_enumFrom_lt files 0 _ hmem
    simpa using this

theorem mkExactGroups_inv :
    ∀ (k : Nat) (l : List (List Nat × List FileInfo)),
      (∀ kv ∈ l, kv.2.length > 1) →
      ∀ g ∈ mkExactGroups k l,
        2 ≤ g.files.length ∧ g.recommended_original < g.files.length := by
  intro k l
  induction l generalizing k with
  | nil => intro _ g hg; simp [mkExactGroups] at hg
  | cons kv rest ih =>
    intro hl g hg
    simp only [mkExactGroups, List.mem_cons] at hg
    rcases hg with h | h
    · have hlen : kv.2.length > 1 := hl kv (List.mem_cons_self _ _)
      have hne : kv.2 ≠ [] := by
        intro he; rw [he] at hlen; simp at hlen
      subst h
      exact ⟨hlen, select_original_lt _ hne⟩
    · exact ih (k + 1) (fun x hx => hl x (List.mem_cons_of_mem _ hx)) g h

theorem clusterOuter_inv (files : List FileInfo) (hashes : List Nat) (threshold : Nat) :
    ∀ (is : List Nat) (assigned : List Bool) (groups : List DuplicateGroup),
      (∀ g ∈ groups, 2 ≤ g.files.length ∧ g.recommended_original < g.files.length) →
      ∀ g ∈ clusterOuter files hashes threshold is assigned groups,
        2 ≤ g.files.length ∧ g.recommended_original < g.files.length := by
  intro is
  induction is with
  | nil => intro assigned groups hinv g hg; exact hinv g hg
  | cons i rest ih =>
    intro assigned groups hinv g hg
    simp only [clusterOuter] at hg
    by_cases hc : (assigned.getD i false || !(files.getD i default).is_image) = true
    · rw [if_pos hc] at hg
      exact ih assigned groups hinv g hg
    · rw [if_neg hc] at hg
      set r := collectSimilar files hashes threshold i
        (List.range' (i + 1) (files.length - (i + 1))) (assigned.set i true) with hr
      by_cases hlen : (files.getD i default :: r.1).length > 1
      · rw [if_pos hlen] at hg
        refine ih _ _ ?_ g hg
        intro g' hg'
        rcases List.mem_append.mp hg' with h | h
        · exact hinv g' h
        · have he : g' = (DuplicateGroup.new groups.length
              (files.getD i default :: r.1)).with_perceptual_hash (hashes.getD i 0) := by
            simpa using h
          subst he
          constructor
          · simpa [DuplicateGroup.new, DuplicateGroup.with_perceptual_hash] using hlen
          · show select_original (files.getD i default :: r.1) <
              (files.getD i default :: r.1).length
            exact select_original_lt _ (by simp)
      · rw [if_neg hlen] at hg
        exact ih _ _ hinv g hg

/-- C6: every group emitted by either stage has at least two members and a
recommended-original index that is valid for its member list. -/
theorem C6_group_invariants :
    ∀ (self : HashGrouper) (content : String → Option (List Nat))
      (files : List FileInfo) (progress : Option Unit) (gs : List DuplicateGroup)
      (g : DuplicateGroup),
      (self.group_by_exact_hash content files progress = Except.ok gs ∨
        self.find_similar_images files progress = Except.ok gs) →
      g ∈ gs → 2 ≤ g.files.length ∧ g.recommended_original < g.files.length := by
  intro self content files progress gs g hstage hg
  rcases hstage with h | h
  · simp only [HashGrouper.group_by_exact_hash, Except.ok.injEq] at h
    subst h
    refine mkExactGroups_inv 0 _ ?_ g hg
    intro kv hkv
    exact of_decide_eq_true (List.mem_filter.mp hkv).2
  · simp only [HashGrouper.find_similar_images, computePerceptualHashes_ok, Except.bind, bind,
      pure, Except.pure, Except.ok.injEq] at h
    subst h
    exact clusterOuter_inv files _ _ _ _ [] (by simp) g hg

def gs6 : List DuplicateGroup :=
  ((HashGrouper.new 5).find_similar_images [imgA, imgB] none).toOption.getD []

def g6 : DuplicateGroup := gs6.getD 0 default

/-- C6 witness: the invariants at the concrete group produced by
`find_similar_images` on two images. -/
theorem C6_group_invariants_witness :
    2 ≤ g6.files.length ∧ g6.recommended_original < g6.files.length :=
  C6_group_invariants (HashGrouper.new 5) (fun _ => none) [imgA, imgB] none gs6 g6
    (Or.inr rfl) (by decide)

/-! ### Lemmas about the `select_original` minimisation -/

theorem keyLt_iff (a b : Nat × Nat × Nat) :
    keyLt a b = true ↔
      a.1 < b.1 ∨ (a.1 = b.1 ∧ (a.2.1 < b.2.1 ∨ (a.2.1 = b.2.1 ∧ a.2.2 < b.2.2))) := by
  simp [keyLt, Bool.or_eq_true, Bool.and_eq_true, decide_eq_true_eq]

theorem keyLt_eq_false_iff (a b : Nat × Nat × Nat) :
    keyLt a b = false ↔
      ¬(a.1 < b.1 ∨ (a.1 = b.1 ∧ (a.2.1 < b.2.1 ∨ (a.2.1 = b.2.1 ∧ a.2.2 < b.2.2)))) := by
  rw [← Bool.not_eq_true, keyLt_iff]

theorem keyLt_irrefl (a : Nat × Nat × Nat) : keyLt a a = false := by
  rw [keyLt_eq_false_iff]
  omega

theorem keyLt_trans {a b c : Nat × Nat × Nat}
    (h1 : keyLt a b = true) (h2 : keyLt b c = true) : keyLt a c = true := by
  rw [keyLt_iff] at h1 h2 ⊢
  omega

theorem keyLt_cross {a b c : Nat × Nat × Nat}
    (h1 : keyLt a b = false) (h2 : keyLt a c = true) : keyLt b c = true := by
  rw [keyLt_eq_false_iff] at h1
  rw [keyLt_iff] at h2 ⊢
  omega

theorem keyLt_antisymm_eq {a b : Nat × Nat × Nat}
    (h1 : keyLt a b = false) (h2 : keyLt b a = false) : a = b := by
  rw [keyLt_eq_false_iff] at h1 h2
  obtain ⟨a1, a2, a3⟩ := a
  obtain ⟨b1, b2, b3⟩ := b
  simp only [Prod.mk.injEq]
  simp only [] at h1 h2
  refine ⟨?_, ?_, ?_⟩ <;> omega

theorem foldl_minByStep_spec :
    ∀ (ps : List (Nat × FileInfo)) (p : Nat × FileInfo),
      List.Pairwise (fun x y => x.1 < y.1) (p :: ps) →
      ps.foldl minByStep p ∈ p :: ps ∧
      (∀ q ∈ p :: ps,
        keyLt (origKey q.2) (origKey (ps.foldl minByStep p).2) = false) ∧
      (∀ q ∈ p :: ps,
        origKey q.2 = origKey (ps.foldl minByStep p).2 → (ps.foldl minByStep p).1 ≤ q.1) := by
  intro ps
  induction ps with
  | nil =>
    intro p _
    refine ⟨List.mem_cons_self _ _, ?_, ?_⟩
    · intro q hq
      simp only [List.mem_singleton] at hq
      subst hq
      exact keyLt_irrefl _
    · intro q hq _
      simp only [List.mem_singleton] at hq
      subst hq
      exact Nat.le_refl _
  | cons y ys ih =>
    intro p hpw
    have hp_y : p.1 < y.1 := (List.pairwise_cons.mp hpw).1 y (List.mem_cons_self _ _)
    have hp_ys : ∀ q ∈ ys, p.1 < q.1 := by
      intro q hq
      exact (List.pairwise_cons.mp hpw).1 q (List.mem_cons_of_mem _ hq)
    have hy_ys : ∀ q ∈ ys, y.1 < q.1 :=
      (List.pairwise_cons.mp (List.pairwise_cons.mp hpw).2).1
    have hys : List.Pairwise (fun x y => x.1 < y.1) ys :=
      (List.pairwise_cons.mp (List.pairwise_cons.mp hpw).2).2
    have hfold : (y :: ys).foldl minByStep p = ys.foldl minByStep (minByStep p y) := rfl
    by_cases hc : keyLt (origKey y.2) (origKey p.2) = true
    · -- the step replaces p by y
      have hm : minByStep p y = y := by simp [minByStep, hc]
      have hpw2 : List.Pairwise (fun x y => x.1 < y.1) (y :: ys) :=
        (List.pairwise_cons.mp hpw).2
      obtain ⟨ihmem, ihmin, ihstab⟩ := ih y hpw2
      rw [hfold, hm]
      refine ⟨?_, ?_, ?_⟩
      · rcases List.mem_cons.mp ihmem with h | h
        · rw [h]; exact List.mem_cons_of_mem _ (List.mem_cons_self _ _)
        · exact List.mem_cons_of_mem _ (List.mem_cons_of_mem _ h)
      · intro q hq
        rcases List.mem_cons.mp hq with h | h
        · -- q = p: if p's key were below the result, then so would y's be
          subst h
          by_contra hne
          have hlt : keyLt (origKey q.2) (origKey (ys.foldl minByStep y).2) = true :=
            Bool.of_not_eq_false hne
          have : keyLt (origKey y.2) (origKey (ys.foldl minByStep y).2) = true :=
            keyLt_trans hc hlt
          rw [ihmin y (List.mem_cons_self _ _)] at this
          exact Bool.false_ne_true this
        · exact ihmin q h
      · intro q hq heq
        rcases List.mem_cons.mp hq with h | h
        · -- q = p: impossible, since y's key is strictly below p's = result's
          subst h
          exfalso
          have : keyLt (origKey y.2) (origKey (ys.foldl minByStep y).2) = true := by
            rw [← heq]; exact hc
          rw [ihmin y (List.mem_cons_self _ _)] at this
          exact Bool.false_ne_true this
        · exact ihstab q h heq
    · -- the step keeps p
      have hc' : keyLt (origKey y.2) (origKey p.2) = false := Bool.of_not_eq_true hc
      have hm : minByStep p y = p := by simp [minByStep, hc]
      have hpw2 : List.Pairwise (fun x y => x.1 < y.1) (p :: ys) := by
        rw [List.pairwise_cons]
        exact ⟨hp_ys, hys⟩
      obtain ⟨ihmem, ihmin, ihstab⟩ := ih p hpw2
      rw [hfold, hm]
      refine ⟨?_, ?_, ?_⟩
      · rcases List.mem_cons.mp ihmem with h | h
        · rw [h]; exact List.mem_cons_self _ _
        · exact List.mem_cons_of_mem _ (List.mem_cons_of_mem _ h)
      · intro q hq
        rcases List.mem_cons.mp hq with h | h
        · subst h; exact ihmin q (List.mem_cons_self _ _)
        · rcases List.mem_cons.mp h with h' | h'
          · -- q = y: if y's key were below the result, p's would be too
            subst h'
            by_contra hne
            have hlt : keyLt (origKey q.2) (origKey (ys.foldl minByStep p).2) = true :=
              Bool.of_not_eq_false hne
            have : keyLt (origKey p.2) (origKey (ys.foldl minByStep p).2) = true :=
              keyLt_cross hc' hlt
            rw [ihmin p (List.mem_cons_self _ _)] at this
            exact Bool.false_ne_true this
          · exact ihmin q (List.mem_cons_of_mem _ h')
      · intro q hq heq
        rcases List.mem_cons.mp hq with h | h
        · subst h; exact ihstab q (List.mem_cons_self _ _) heq
        · rcases List.mem_cons.mp h with h' | h'
          · -- q = y with the result's key: then p, y and the result share
            -- the key, so the result points at or before p, and p comes
            -- before y
            subst h'
            have hrp_lt : keyLt (origKey (ys.foldl minByStep p).2) (origKey p.2) = false := by
              rw [← heq]
              exact hc'
            have hpr : keyLt (origKey p.2) (origKey (ys.foldl minByStep p).2) = false :=
              ihmin p (List.mem_cons_self _ _)
            have hpq : origKey p.2 = origKey (ys.foldl minByStep p).2 :=
              keyLt_antisymm_eq hpr hrp_lt
            have hrp : (ys.foldl minByStep p).1 ≤ p.1 :=
              ihstab p (List.mem_cons_self _ _) hpq
            omega
          · exact ihstab q (List.mem_cons_of_mem _ h') heq

theorem mem_enumFrom_le (l : List FileInfo) :
    ∀ (k : Nat) (p : Nat × FileInfo), p ∈ l.enumFrom k → k ≤ p.1 := by
  induction l with
  | nil => intro k p hp; simp [List.enumFrom] at hp
  | cons x xs ih =>
    intro k p hp
    simp only [List.enumFrom, List.mem_cons] at hp
    rcases hp with h | h
    · subst h; exact Nat.le_refl _
    · have := ih (k + 1) p h
      omega

theorem enumFrom_pairwise (l : List FileInfo) :
    ∀ (k : Nat), List.Pairwise (fun x y : Nat × FileInfo => x.1 < y.1) (l.enumFrom k) := by
  induction l with
  | nil => intro k; simp [List.enumFrom]
  | cons x xs ih =>
    intro k
    simp only [List.enumFrom]
    rw [List.pairwise_cons]
    refine ⟨?_, ih (k + 1)⟩
    intro q hq
    have := mem_enumFrom_le xs (k + 1) q hq
    omega

theorem getD_mem_enum (l : List FileInfo) (j : Nat) (h : j < l.length) :
    (j, l.getD j default) ∈ l.enum := by
  rw [List.mk_mem_enum_iff_getElem?]
  rw [List.getD_eq_getElem l default h]
  exact List.getElem?_eq_getElem h

theorem mem_enum_getD (l : List FileInfo) (p : Nat × FileInfo) (hp : p ∈ l.enum) :
    p.2 = l.getD p.1 default ∧ p.1 < l.length := by
  have h1 : p.1 < l.length := by simpa using mem_enumFrom_lt l 0 p hp
  have h2 : l[p.1]? = some p.2 := by
    rw [← List.mk_mem_enum_iff_getElem?]
    exact hp
  rw [List.getElem?_eq_getElem h1] at h2
  refine ⟨?_, h1⟩
  rw [List.getD_eq_getElem l default h1]
  exact (Option.some.inj h2).symm

/-- C7: for a non-empty member list, `select_original` returns a valid index
whose key tuple (modified time, path byte length, path component count) is
lexicographically minimal — so the strictly earliest modification time wins
regardless of position, equal times are broken by shorter path then fewer
components — and among members with the very same key tuple the first
encountered index is kept. -/
theorem C7_select_original_minimal :
    ∀ (files : List FileInfo), files ≠ [] →
      select_original files < files.length ∧
      ∀ j, j < files.length →
        (keyLt (origKey (files.getD j default))
          (origKey (files.getD (select_original files) default)) = false ∧
         (origKey (files.getD j default) =
            origKey (files.getD (select_original files) default) →
          select_original files ≤ j)) := by
  intro files hne
  cases he : files.enum with
  | nil =>
    exfalso
    have : files.enum.length = 0 := by rw [he]; rfl
    rw [List.enum_length] at this
    exact hne (List.length_eq_zero.mp this)
  | cons p ps =>
    have hpw : List.Pairwise (fun x y => x.1 < y.1) (p :: ps) := by
      have h := enumFrom_pairwise files 0
      rw [show files.enumFrom 0 = files.enum from rfl, he] at h
      exact h
    obtain ⟨hmem, hmin, hstab⟩ := foldl_minByStep_spec ps p hpw
    have hsel : select_original files = (ps.foldl minByStep p).1 := by
      unfold select_original
      rw [he]
    have hrmem : ps.foldl minByStep p ∈ files.enum := by rw [he]; exact hmem
    obtain ⟨hr2, hr1⟩ := mem_enum_getD files _ hrmem
    constructor
    · rw [hsel]; exact hr1
    · intro j hj
      have hqmem : (j, files.getD j default) ∈ p :: ps := by
        rw [← he]
        exact getD_mem_enum files j hj
      constructor
      · have h := hmin _ hqmem
        rw [hr2] at h
        rw [hsel]
        exact h
      · intro heq
        rw [hsel] at heq ⊢
        rw [← hr2] at heq
        exact hstab _ hqmem heq

/-- C7 witness: the minimisation applied to three concrete records listed
out of modification-time order; the record with the earliest time (placed
second) is selected. -/
theorem C7_select_original_minimal_witness :
    (select_original [imgB, imgA, imgC] < ([imgB, imgA, imgC] : List FileInfo).length ∧
      ∀ j, j < ([imgB, imgA, imgC] : List FileInfo).length →
        (keyLt (origKey ([imgB, imgA, imgC].getD j default))
          (origKey ([imgB, imgA, imgC].getD (select_original [imgB, imgA, imgC]) default)) =
            false ∧
         (origKey ([imgB, imgA, imgC].getD j default) =
            origKey ([imgB, imgA, imgC].getD (select_original [imgB, imgA, imgC]) default) →
          select_original [imgB, imgA, imgC] ≤ j))) ∧
    select_original [imgB, imgA, imgC] = 1 :=
  ⟨C7_select_original_minimal [imgB, imgA, imgC] (by decide), by decide⟩

/-! ### The spec's greedy single-link clustering pseudocode (section 4.4) -/

/-- The spec's inner loop, written from the pseudocode: `for j in (i+1)..n:
if assigned[j] or not image(j): continue; if are_similar(fp[i], fp[j],
threshold): cluster.add(j); assigned[j] = true`.  Returns the indices added
to the cluster and the updated assignment. -/
def specInner (image : Nat → Bool) (fp : Nat → Nat) (threshold i : Nat) :
    List Nat → List Bool → List Nat × List Bool
  | [], assigned => ([], assigned)
  | j :: js, assigned =>
    if assigned.getD j false || !image j then
      specInner image fp threshold i js assigned
    else if PerceptualHasher.are_similar (fp i) (fp j) threshold then
      let r := specInner image fp threshold i js (assigned.set j true)
      (j :: r.1, r.2)
    else
      specInner image fp threshold i js assigned

/-- The spec's outer loop, written from the pseudocode: `for i in 0..n: if
assigned[i] or not image(i): continue; cluster = (i); assigned[i] = true;
...; if |cluster| > 1: emit group(cluster, representative_fingerprint =
fp[i])`.  Each emitted cluster is the index list paired with its seed. -/
def specOuter (image : Nat → Bool) (fp : Nat → Nat) (threshold n : Nat) :
    List Nat → List Bool → List (List Nat × Nat) → List (List Nat × Nat)
  | [], _, emitted => emitted
  | i :: is, assigned, emitted =>
    if assigned.getD i false || !image i then
      specOuter image fp threshold n is assigned emitted
    else
      let r := specInner image fp threshold i
        (List.range' (i + 1) (n - (i + 1))) (assigned.set i true)
      let cluster := i :: r.1
      if cluster.length > 1 then
        specOuter image fp threshold n is r.2 (emitted ++ [(cluster, i)])
      else
        specOuter image fp threshold n is r.2 emitted

/-- The spec's greedy single-link clustering over indices `0..n`. -/
def specGreedyClusters (image : Nat → Bool) (fp : Nat → Nat) (threshold n : Nat) :
    List (List Nat × Nat) :=
  specOuter image fp threshold n (List.range n) (List.replicate n false) []

/-- Realise a list of spec clusters as `DuplicateGroup`s: ids by emission
order starting at `k`, members looked up by index, representative
fingerprint that of the seed. -/
def clustersToGroups (files : List FileInfo) (hashes : List Nat) :
    Nat → List (List Nat × Nat) → List DuplicateGroup
  | _, [] => []
  | k, (cluster, seed) :: rest =>
    (DuplicateGroup.new k (cluster.map (fun j => files.getD j default))).with_perceptual_hash
      (hashes.getD seed 0) :: clustersToGroups files hashes (k + 1) rest

theorem clustersToGroups_length (files : List FileInfo) (hashes : List Nat) :
    ∀ (e : List (List Nat × Nat)) (k : Nat),
      (clustersToGroups files hashes k e).length = e.length := by
  intro e
  induction e with
  | nil => intro k; rfl
  | cons c rest ih =>
    intro k
    obtain ⟨cluster, seed⟩ := c
    simp [clustersToGroups, ih]

theorem clustersToGroups_append (files : List FileInfo) (hashes : List Nat) :
    ∀ (e : List (List Nat × Nat)) (k : Nat) (cluster : List Nat) (seed : Nat),
      clustersToGroups files hashes k (e ++ [(cluster, seed)]) =
        clustersToGroups files hashes k e ++
          [(DuplicateGroup.new (k + e.length)
              (cluster.map (fun j => files.getD j default))).with_perceptual_hash
            (hashes.getD seed 0)] := by
  intro e
  induction e with
  | nil => intro k cluster seed; simp [clustersToGroups]
  | cons c rest ih =>
    intro k cluster seed
    obtain ⟨c1, c2⟩ := c
    simp only [List.cons_append, clustersToGroups, List.length_cons]
    rw [List.append_eq, ih (k + 1) cluster seed]
    have harith : k + (rest.length + 1) = k + 1 + rest.length := by omega
    rw [harith]

theorem collectSimilar_spec (files : List FileInfo) (hashes : List Nat) (threshold i : Nat) :
    ∀ (js : List Nat) (assigned : List Bool),
      collectSimilar files hashes threshold i js assigned =
        ((specInner (fun k => (files.getD k default).is_image) (fun k => hashes.getD k 0)
            threshold i js assigned).1.map (fun j => files.getD j default),
         (specInner (fun k => (files.getD k default).is_image) (fun k => hashes.getD k 0)
            threshold i js assigned).2) := by
  intro js
  induction js with
  | nil => intro assigned; rfl
  | cons j js ih =>
    intro assigned
    simp only [collectSimilar, specInner]
    by_cases h1 : (assigned.getD j false || !(files.getD j default).is_image) = true
    · rw [if_pos h1, if_pos h1]
      exact ih assigned
    · rw [if_neg h1, if_neg h1]
      by_cases h2 :
          PerceptualHasher.are_similar (hashes.getD i 0) (hashes.getD j 0) threshold = true
      · rw [if_pos h2, if_pos h2]
        simp only [ih (assigned.set j true), List.map_cons]
      · rw [if_neg h2, if_neg h2]
        exact ih assigned

theorem clusterOuter_spec (files : List FileInfo) (hashes : List Nat) (threshold : Nat) :
    ∀ (is : List Nat) (assigned : List Bool) (emitted : List (List Nat × Nat)),
      clusterOuter files hashes threshold is assigned
          (clustersToGroups files hashes 0 emitted) =
        clustersToGroups files hashes 0
          (specOuter (fun k => (files.getD k default).is_image) (fun k => hashes.getD k 0)
            threshold files.length is assigned emitted) := by
  intro is
  induction is with
  | nil => intro assigned emitted; rfl
  | cons i is ih =>
    intro assigned emitted
    simp only [clusterOuter, specOuter]
    by_cases h1 : (assigned.getD i false || !(files.getD i default).is_image) = true
    · rw [if_pos h1, if_pos h1]
      exact ih assigned emitted
    · rw [if_neg h1, if_neg h1]
      rw [collectSimilar_spec files hashes threshold i
        (List.range' (i + 1) (files.length - (i + 1))) (assigned.set i true)]
      simp only [List.length_cons, List.length_map]
      by_cases h2 :
          ((specInner (fun k => (files.getD k default).is_image) (fun k => hashes.getD k 0)
            threshold i (List.range' (i + 1) (files.length - (i + 1)))
            (assigned.set i true)).1.length + 1 > 1)
      · rw [if_pos h2, if_pos h2]
        rw [clustersToGroups_length]
        rw [← List.map_cons (fun j => files.getD j default) i]
        rw [show (clustersToGroups files hashes 0 emitted ++
            [(DuplicateGroup.new emitted.length
                ((i :: (specInner (fun k => (files.getD k default).is_image)
                  (fun k => hashes.getD k 0) threshold i
                  (List.range' (i + 1) (files.length - (i + 1)))
                  (assigned.set i true)).1).map (fun j => files.getD j default))).with_perceptual_hash
              (hashes.getD i 0)]) =
            clustersToGroups files hashes 0
              (emitted ++ [(i :: (specInner (fun k => (files.getD k default).is_image)
                (fun k => hashes.getD k 0) threshold i
                (List.range' (i + 1) (files.length - (i + 1)))
                (assigned.set i true)).1, i)]) from by
          rw [clustersToGroups_append]
          simp]
        exact ih _ _
      · rw [if_neg h2, if_neg h2]
        exact ih _ _

/-- C5: the grouping loop of `find_similar_images` refines the spec's
greedy single-link pseudocode of section 4.4: scanning seeds in increasing
index order, each unassigned image joins the cluster of the first unassigned
similar seed, emitted clusters carry the seed's fingerprint as
representative, a later item similar to a member but not to the seed is not
pulled in, and — both sides being functions of the input — the same input
order always reproduces the same clusters. -/
theorem C5_cluster_stage_refines_spec :
    ∀ (self : HashGrouper) (files : List FileInfo) (hashes : List Nat),
      self.clusterStage files hashes =
        clustersToGroups files hashes 0
          (specGreedyClusters (fun k => (files.getD k default).is_image)
            (fun k => hashes.getD k 0) self.similarity_threshold files.length) := by
  intro self files hashes
  exact clusterOuter_spec files hashes self.similarity_threshold
    (List.range files.length) (List.replicate files.length false) []

/-! ### Lemmas for the exact-hash bucket map -/

theorem insertBucket_sound (content : String → Option (List Nat)) :
    ∀ (m : List (List Nat × List FileInfo)) (h : List Nat) (f : FileInfo),
      (∀ kv ∈ m, ∀ x ∈ kv.2, ExactHasher.compute_hash content x.path = Except.ok kv.1) →
      ExactHasher.compute_hash content f.path = Except.ok h →
      ∀ kv ∈ insertBucket m h f, ∀ x ∈ kv.2,
        ExactHasher.compute_hash content x.path = Except.ok kv.1 := by
  intro m
  induction m with
  | nil =>
    intro h f _ hf kv hkv x hx
    simp only [insertBucket, List.mem_singleton] at hkv
    subst hkv
    simp only [List.mem_singleton] at hx
    subst hx
    exact hf
  | cons p rest ih =>
    intro h f hm hf kv hkv x hx
    obtain ⟨k, fs⟩ := p
    simp only [insertBucket] at hkv
    by_cases hk : k = h
    · rw [if_pos hk] at hkv
      rcases List.mem_cons.mp hkv with he | he
      · subst he
        rcases List.mem_append.mp hx with hx' | hx'
        · exact hm (k, fs) (List.mem_cons_self _ _) x hx'
        · simp only [List.mem_singleton] at hx'
          subst hx'
          rw [hf, hk]
      · exact hm kv (List.mem_cons_of_mem _ he) x hx
    · rw [if_neg hk] at hkv
      rcases List.mem_cons.mp hkv with he | he
      · subst he
        exact hm (k, fs) (List.mem_cons_self _ _) x hx
      · exact ih h f (fun kv' hkv' => hm kv' (List.mem_cons_of_mem _ hkv')) hf kv he x hx

theorem buildFold_sound (content : String → Option (List Nat)) :
    ∀ (files : List FileInfo) (m : List (List Nat × List FileInfo)),
      (∀ kv ∈ m, ∀ x ∈ kv.2, ExactHasher.compute_hash content x.path = Except.ok kv.1) →
      ∀ kv ∈ files.foldl (buildStep content) m, ∀ x ∈ kv.2,
        ExactHasher.compute_hash content x.path = Except.ok kv.1 := by
  intro files
  induction files with
  | nil => intro m hm; exact hm
  | cons f fs ih =>
    intro m hm
    simp only [List.foldl_cons]
    cases hc : ExactHasher.compute_hash content f.path with
    | ok h =>
      have hstep : buildStep content m f = insertBucket m h f := by simp [buildStep, hc]
      rw [hstep]
      exact ih _ (insertBucket_sound content m h f hm hc)
    | error e =>
      have hstep : buildStep content m f = m := by simp [buildStep, hc]
      rw [hstep]
      exact ih m hm

/-- First bucket stored under a key (proof infrastructure for the map). -/
def lookupBucket : List (List Nat × List FileInfo) → List Nat → List FileInfo
  | [], _ => []
  | (k, fs) :: rest, h => if k = h then fs else lookupBucket rest h

theorem mem_lookupBucket_insert_self :
    ∀ (m : List (List Nat × List FileInfo)) (h : List Nat) (f : FileInfo),
      f ∈ lookupBucket (insertBucket m h f) h := by
  intro m
  induction m with
  | nil => intro h f; simp [insertBucket, lookupBucket]
  | cons p rest ih =>
    intro h f
    obtain ⟨k, fs⟩ := p
    by_cases hk : k = h
    · simp [insertBucket, lookupBucket, hk]
    · simp [insertBucket, lookupBucket, hk, ih]

theorem mem_lookupBucket_insert :
    ∀ (m : List (List Nat × List FileInfo)) (h k : List Nat) (f g : FileInfo),
      g ∈ lookupBucket m k → g ∈ lookupBucket (insertBucket m h f) k := by
  intro m
  induction m with
  | nil => intro h k f g hg; simp [lookupBucket] at hg
  | cons p rest ih =>
    intro h k f g hg
    obtain ⟨k', fs⟩ := p
    by_cases hk' : k' = h
    · simp only [insertBucket, if_pos hk', lookupBucket] at hg ⊢
      by_cases hkk : k' = k
      · rw [if_pos hkk] at hg ⊢
        exact List.mem_append.mpr (Or.inl hg)
      · rw [if_neg hkk] at hg ⊢
        exact hg
    · simp only [insertBucket, if_neg hk', lookupBucket] at hg ⊢
      by_cases hkk : k' = k
      · rw [if_pos hkk] at hg ⊢
        exact hg
      · rw [if_neg hkk] at hg ⊢
        exact ih h k f g hg

theorem lookupBucket_foldl (content : String → Option (List Nat)) :
    ∀ (files : List FileInfo) (m : List (List Nat × List FileInfo)) (k : List Nat)
      (g : FileInfo),
      g ∈ lookupBucket m k → g ∈ lookupBucket (files.foldl (buildStep content) m) k := by
  intro files
  induction files with
  | nil => intro m k g hg; exact hg
  | cons f fs ih =>
    intro m k g hg
    simp only [List.foldl_cons]
    cases hc : ExactHasher.compute_hash content f.path with
    | ok h =>
      have hstep : buildStep content m f = insertBucket m h f := by simp [buildStep, hc]
      rw [hstep]
      exact ih _ k g (mem_lookupBucket_insert m h k f g hg)
    | error e =>
      have hstep : buildStep content m f = m := by simp [buildStep, hc]
      rw [hstep]
      exact ih m k g hg

theorem mem_buildFold_of_hash (content : String → Option (List Nat)) :
    ∀ (files : List FileInfo) (m : List (List Nat × List FileInfo)) (f : FileInfo)
      (h : List Nat),
      f ∈ files → ExactHasher.compute_hash content f.path = Except.ok h →
      f ∈ lookupBucket (files.foldl (buildStep content) m) h := by
  intro files
  induction files with
  | nil => intro m f h hf; simp at hf
  | cons f' fs ih =>
    intro m f h hf hc
    rcases List.mem_cons.mp hf with he | he
    · subst he
      simp only [List.foldl_cons]
      have hstep : buildStep content m f = insertBucket m h f := by simp [buildStep, hc]
      rw [hstep]
      exact lookupBucket_foldl content fs _ h f (mem_lookupBucket_insert_self m h f)
    · simp only [List.foldl_cons]
      exact ih _ f h he hc

theorem lookupBucket_mem :
    ∀ (m : List (List Nat × List FileInfo)) (h : List Nat),
      lookupBucket m h ≠ [] → (h, lookupBucket m h) ∈ m := by
  intro m
  induction m with
  | nil => intro h hne; simp [lookupBucket] at hne
  | cons p rest ih =>
    intro h hne
    obtain ⟨k, fs⟩ := p
    by_cases hk : k = h
    · simp only [lookupBucket, if_pos hk] at hne ⊢
      subst hk
      exact List.mem_cons_self _ _
    · simp only [lookupBucket, if_neg hk] at hne ⊢
      exact List.mem_cons_of_mem _ (ih h hne)

theorem mkExactGroups_mem_files :
    ∀ (k : Nat) (l : List (List Nat × List FileInfo)) (g : DuplicateGroup),
      g ∈ mkExactGroups k l → ∃ kv ∈ l, g.files = kv.2 ∧ g.exact_hash = some kv.1 := by
  intro k l
  induction l generalizing k with
  | nil => intro g hg; simp [mkExactGroups] at hg
  | cons kv rest ih =>
    intro g hg
    obtain ⟨h, fs⟩ := kv
    simp only [mkExactGroups, List.mem_cons] at hg
    rcases hg with he | he
    · subst he
      exact ⟨(h, fs), List.mem_cons_self _ _, rfl, rfl⟩
    · obtain ⟨kv', hkv', hf, hh⟩ := ih (k + 1) g he
      exact ⟨kv', List.mem_cons_of_mem _ hkv', hf, hh⟩

theorem mkExactGroups_of_mem :
    ∀ (k : Nat) (l : List (List Nat × List FileInfo)) (kv : List Nat × List FileInfo),
      kv ∈ l → ∃ g ∈ mkExactGroups k l, g.files = kv.2 := by
  intro k l
  induction l generalizing k with
  | nil => intro kv hkv; simp at hkv
  | cons kv' rest ih =>
    intro kv hkv
    obtain ⟨h, fs⟩ := kv'
    rcases List.mem_cons.mp hkv with he | he
    · subst he
      exact ⟨(DuplicateGroup.new k fs).with_exact_hash h,
        List.mem_cons_self _ _, rfl⟩
    · obtain ⟨g, hg, hf⟩ := ih (k + 1) kv he
      exact ⟨g, List.mem_cons_of_mem _ hg, hf⟩

theorem two_le_length_of_mem_ne {a b : FileInfo} {l : List FileInfo}
    (ha : a ∈ l) (hb : b ∈ l) (hne : a ≠ b) : 2 ≤ l.length := by
  cases l with
  | nil => simp at ha
  | cons x xs =>
    cases xs with
    | nil =>
      simp only [List.mem_singleton] at ha hb
      exact absurd (ha.trans hb.symm) hne
    | cons y ys => simp only [List.length_cons]; omega

/-- C4: the exact stage emits only groups with at least two members, and two
distinct readable input files land in one emitted group exactly when the
SHA-256 digests of their contents coincide. -/
theorem C4_exact_grouping_iff :
    ∀ (self : HashGrouper) (content : String → Option (List Nat))
      (files : List FileInfo) (progress : Option Unit) (gs : List DuplicateGroup),
      self.group_by_exact_hash content files progress = Except.ok gs →
      (∀ g ∈ gs, 2 ≤ g.files.length) ∧
      (∀ a b, a ∈ files → b ∈ files → a ≠ b →
        ∀ ca cb, content a.path = some ca → content b.path = some cb →
        ((∃ g ∈ gs, a ∈ g.files ∧ b ∈ g.files) ↔ sha256 ca = sha256 cb)) := by
  intro self content files progress gs hgs
  simp only [HashGrouper.group_by_exact_hash, Except.ok.injEq] at hgs
  subst hgs
  constructor
  · intro g hg
    exact (mkExactGroups_inv 0 _
      (fun kv hkv => of_decide_eq_true (List.mem_filter.mp hkv).2) g hg).1
  · intro a b ha hb hne ca cb hca hcb
    constructor
    · rintro ⟨g, hg, hag, hbg⟩
      obtain ⟨kv, hkv, hfiles, _⟩ := mkExactGroups_mem_files 0 _ g hg
      have hkvm : kv ∈ buildMap content files := (List.mem_filter.mp hkv).1
      have hsound := buildFold_sound content files [] (by simp) kv hkvm
      rw [hfiles] at hag hbg
      have h1 := hsound a hag
      have h2 := hsound b hbg
      simp only [ExactHasher.compute_hash, hca, Except.ok.injEq] at h1
      simp only [ExactHasher.compute_hash, hcb, Except.ok.injEq] at h2
      rw [h1, h2]
    · intro heq
      have hfa : ExactHasher.compute_hash content a.path = Except.ok (sha256 ca) := by
        simp [ExactHasher.compute_hash, hca]
      have hfb : ExactHasher.compute_hash content b.path = Except.ok (sha256 ca) := by
        simp [ExactHasher.compute_hash, hcb, heq]
      have hal : a ∈ lookupBucket (buildMap content files) (sha256 ca) :=
        mem_buildFold_of_hash content files [] a _ ha hfa
      have hbl : b ∈ lookupBucket (buildMap content files) (sha256 ca) :=
        mem_buildFold_of_hash content files [] b _ hb hfb
      have hne0 : lookupBucket (buildMap content files) (sha256 ca) ≠ [] := by
        intro h0
        rw [h0] at hal
        simp at hal
      have hbm := lookupBucket_mem _ _ hne0
      have hlen : 2 ≤ (lookupBucket (buildMap content files) (sha256 ca)).length :=
        two_le_length_of_mem_ne hal hbl hne
      have hflt : (sha256 ca, lookupBucket (buildMap content files) (sha256 ca)) ∈
          (buildMap content files).filter (fun kv => kv.2.length > 1) := by
        refine List.mem_filter.mpr ⟨hbm, ?_⟩
        have hgt : (lookupBucket (buildMap content files) (sha256 ca)).length > 1 := by omega
        exact decide_eq_true hgt
      obtain ⟨g, hg, hfiles⟩ := mkExactGroups_of_mem 0 _ _ hflt
      refine ⟨g, hg, ?_, ?_⟩
      · rw [hfiles]; exact hal
      · rw [hfiles]; exact hbl

def env4 : String → Option (List Nat) := fun p =>
  if p = "/d/f1.jpg" then some [7, 7, 7]
  else if p = "/d/f2.jpg" then some [7, 7, 7]
  else if p = "/d/f3.jpg" then some [7, 7, 7]
  else if p = "/d/f4.jpg" then some [8, 8, 8]
  else none

def file4_1 : FileInfo :=
  { path := "/d/f1.jpg", size := 3, modified := 1,
    file_type := MediaType.image ImageFormat.jpeg }

def file4_2 : FileInfo :=
  { path := "/d/f2.jpg", size := 3, modified := 2,
    file_type := MediaType.image ImageFormat.jpeg }

def file4_3 : FileInfo :=
  { path := "/d/f3.jpg", size := 3, modified := 3,
    file_type := MediaType.image ImageFormat.jpeg }

def file4_4 : FileInfo :=
  { path := "/d/f4.jpg", size := 3, modified := 4,
    file_type := MediaType.image ImageFormat.jpeg }

def files4 : List FileInfo := [file4_1, file4_2, file4_3, file4_4]

def gs4 : List DuplicateGroup :=
  ((HashGrouper.new 5).group_by_exact_hash env4 files4 none).toOption.getD []

/-- C4 witness: the spec's concrete scenario — three byte-identical files
and one different file give exactly one group, holding precisely the three
identical files, the different file in no group — together with the iff of
the theorem instantiated at the first two files. -/
theorem C4_exact_grouping_iff_witness :
    (gs4.length = 1 ∧
      (gs4.getD 0 default).files.length = 3 ∧
      file4_1 ∈ (gs4.getD 0 default).files ∧
      file4_2 ∈ (gs4.getD 0 default).files ∧
      file4_3 ∈ (gs4.getD 0 default).files ∧
      (∀ g ∈ gs4, file4_4 ∉ g.files)) ∧
    ((∃ g ∈ gs4, file4_1 ∈ g.files ∧ file4_2 ∈ g.files) ↔
      sha256 [7, 7, 7] = sha256 [7, 7, 7]) :=
  ⟨by decide,
   ((C4_exact_grouping_iff (HashGrouper.new 5) env4 files4 none gs4 rfl).2
      file4_1 file4_2 (by decide) (by decide) (by decide)
      [7, 7, 7] [7, 7, 7] (by decide) (by decide))⟩
